import Mathlib

/-!
Verification of the review-preprocessing pipeline in
src/data_preparation.py: the text normalizer (cleanup_text, lines 43-69),
the vocabulary builder (create_vocab, lines 71-106, built on
collections.Counter and torchtext.vocab.vocab) and the review encoder
(process_reviews, lines 108-144), together with the corpus construction
of process_data (lines 266-268).

Text is modelled as Lean String / List Char.  The external nltk
tokenizer (word_tokenize) and lemmatizer (WordNetLemmatizer) are not
part of the repository; following the spec they are injected parameters
(String → List String and String → String).  A concrete whitespace
tokenizer and the identity lemmatizer instantiate them in witnesses,
where they agree with the nltk functions on the inputs used.
-/

namespace SentimentPrep

/-- The character class kept by cleanup_text's first substitution,
re.sub deleting every maximal match of the pattern "[^a-z.?!:)( \n]+"
(line 62): a character survives exactly when it is a lowercase ASCII
letter or one of the nine characters of the class. -/
def allowed (c : Char) : Bool :=
  (decide ('a' ≤ c) && decide (c ≤ 'z')) || c == '.' || c == '?' || c == '!' ||
    c == ':' || c == ')' || c == '(' || c == ' ' || c == '\n'

/-- One re.sub pass over the pattern of two or more literal dots
(the pattern on lines 63-68): every maximal run of at least two
consecutive dot characters is replaced by the single replacement
character r, and isolated dots are kept.  prevDot records whether the
previous character was a dot of the run currently being consumed; the
replacement is emitted at the last dot of a run. -/
def subDotRunsAux (r : Char) (prevDot : Bool) : List Char → List Char
  | [] => []
  | c :: cs =>
    if c = '.' then
      if cs.head? = some '.' then subDotRunsAux r true cs
      else (if prevDot then r else '.') :: subDotRunsAux r false cs
    else c :: subDotRunsAux r false cs

/-- One whole re.sub call on the dot-run pattern, with replacement r. -/
def subDotRuns (r : Char) (l : List Char) : List Char :=
  subDotRunsAux r false l

/-- cleanup_text of src/data_preparation.py (lines 61-69) on a list of
characters: lowercase every character (Python str.lower, modelled by
Char.toLower, which lowercases the ASCII letters; every character that
both functions leave outside a-z is removed by the following filter),
keep only the allowed characters, then apply the six re.sub passes of
lines 63-68, each matching runs of two or more literal dots and
replacing them by the characters dot, bang, question mark, close paren,
open paren and colon in turn. -/
def cleanupList (l : List Char) : List Char :=
  subDotRuns ':' (subDotRuns '(' (subDotRuns ')' (subDotRuns '?' (subDotRuns '!'
    (subDotRuns '.' ((l.map Char.toLower).filter allowed))))))

/-- cleanup_text on Lean strings. -/
def cleanup_text (s : String) : String :=
  String.mk (cleanupList s.data)

/-- noRunOf c l holds when l contains no two consecutive occurrences
of the character c. -/
def noRunOf (c : Char) : List Char → Bool
  | [] => true
  | a :: l => (!(a == c && l.head? == some c)) && noRunOf c l

/-- The run-freedom property claimed by the spec for NormalizedText:
no run of two or more consecutive occurrences of any one punctuation
mark of the class. -/
def noPunctRuns (l : List Char) : Bool :=
  noRunOf '.' l && noRunOf '!' l && noRunOf '?' l && noRunOf '(' l &&
    noRunOf ')' l && noRunOf ':' l

/-- Collapse every run of consecutive dots to a single dot, written
from the simpler description of cleanup_text that the claims compare
against: a dot followed by another dot is dropped. -/
def collapseDotRuns : List Char → List Char
  | [] => []
  | c :: cs =>
    if c = '.' ∧ cs.head? = some '.' then collapseDotRuns cs
    else c :: collapseDotRuns cs

/-- The simpler function the refinement claim compares cleanup_text
with: only lowercase, filter to the allowed character set, and collapse
dot runs to a single dot. -/
def cleanup_simple (s : String) : String :=
  String.mk (collapseDotRuns ((s.data.map Char.toLower).filter allowed))

/-- The torchtext Vocab object as used by the source: an ordered list
of tokens (the index of a token is its id) and an optional default
index returned for out-of-vocabulary lookups once set_default_index
has been called. -/
structure Vocab where
  itos : List String
  default_index : Option Nat

/-- Index of the first occurrence of w in the token list (torchtext's
string-to-index lookup). -/
def stoi (ts : List String) (w : String) : Option Nat :=
  match ts with
  | [] => none
  | t :: ts => if t = w then some 0 else (stoi ts w).map (fun i => i + 1)

/-- torchtext Vocab.__getitem__: the id of w when present, otherwise
the default index when one was set (torchtext raises when it was not,
modelled by none). -/
def Vocab.getitem (v : Vocab) (w : String) : Option Nat :=
  match stoi v.itos w with
  | some i => some i
  | none => v.default_index

/-- torchtext Vocab.__call__ on a list of tokens (lookup_indices):
the list of ids, failing altogether when any single lookup fails. -/
def Vocab.call (v : Vocab) : List String → Option (List Nat)
  | [] => some []
  | w :: ws =>
    match v.getitem w, v.call ws with
    | some i, some is => some (i :: is)
    | _, _ => none

/-- torchtext set_default_index (line 105). -/
def set_default_index (v : Vocab) (i : Nat) : Vocab :=
  ⟨v.itos, some i⟩

/-- The distinct elements of ws in order of first occurrence, the key
order of a Python dict built by insertion; seen accumulates the keys
already listed. -/
def firstSeen (seen : List String) : List String → List String
  | [] => []
  | w :: ws =>
    if w ∈ seen then firstSeen seen ws
    else w :: firstSeen (w :: seen) ws

/-- collections.Counter of a token list (line 101): each distinct
token in first-seen order, paired with its number of occurrences. -/
def counter (ws : List String) : List (String × Nat) :=
  (firstSeen [] ws).map (fun w => (w, ws.count w))

/-- torchtext.vocab.vocab(ordered_dict, min_freq, specials) with the
default special_first=True (line 103): the special tokens are removed
from the ordered dict, the tokens whose count reaches min_freq are kept
in dict order, and the specials are placed first; no default index is
set yet. -/
def vocab (token_freqs : List (String × Nat)) (min_freq : Nat) (specials : List String) : Vocab :=
  ⟨specials ++
    (((token_freqs.filter (fun p => decide (p.1 ∉ specials))).filter
      (fun p => decide (min_freq ≤ p.2))).map Prod.fst), none⟩

/-- create_vocab of src/data_preparation.py (lines 71-106): tokenize,
lemmatize, count with Counter, build the torchtext vocabulary with the
hardcoded min_freq = 10 and specials [pad_token, unk_token], and set
the default index to 1. -/
def create_vocab (text : String) (tokenizer : String → List String)
    (lemmatizer : String → String) (unk_token pad_token : String) : Vocab :=
  let tokenized_text := tokenizer text
  let lemmatized_text := tokenized_text.map lemmatizer
  let token_freqs := counter lemmatized_text
  let vocabulary := vocab token_freqs 10 [pad_token, unk_token]
  set_default_index vocabulary 1

/-- process_reviews of src/data_preparation.py (lines 108-144): clean
the review, tokenize, lemmatize, convert the tokens to ids through the
vocabulary, then pad with the pad id 0 to max_len when shorter and
truncate to the first max_len ids when longer.  The id conversion is
fallible exactly as the torchtext lookup is (an out-of-vocabulary token
with no default index set raises). -/
def process_reviews (review : String) (tokenizer : String → List String)
    (lemmatizer : String → String) (vocabulary : Vocab) (max_len : Nat) :
    Option (List Nat) :=
  let review_cleaned := cleanup_text review
  let review_tokenized := tokenizer review_cleaned
  let lemmatized_text := review_tokenized.map lemmatizer
  match vocabulary.call lemmatized_text with
  | none => none
  | some review_processed =>
    if review_processed.length < max_len then
      some (review_processed ++ List.replicate (max_len - review_processed.length) 0)
    else if max_len < review_processed.length then
      some (review_processed.take max_len)
    else
      some review_processed

/-- The corpus actually fed to vocabulary induction by process_data:
line 268 joins only the training reviews with a newline.  Line 267 also
computes a concatenation of the training and the validation reviews
(corpus_data), but that value is never used afterwards. -/
def process_data_corpus (training_reviews validation_reviews : List String) : String :=
  String.intercalate "\n" training_reviews

/-- Modelled from the spec: the corpus the spec prescribes for
vocabulary induction, the training and the validation splits' review
texts joined by a newline. -/
def corpus_train_val (training_reviews validation_reviews : List String) : String :=
  String.intercalate "\n" (training_reviews ++ validation_reviews)

/-- Helper splitting a character list into space-separated words;
acc accumulates the current word reversed. -/
def wordsAux (acc : List Char) : List Char → List String
  | [] => if acc.isEmpty then [] else [String.mk acc.reverse]
  | c :: cs =>
    if c = ' ' then
      if acc.isEmpty then wordsAux [] cs
      else String.mk acc.reverse :: wordsAux [] cs
    else wordsAux (c :: acc) cs

/-- A concrete tokenizer instantiating the injected tokenizer
parameter in witnesses: split on spaces, dropping empty words.  On the
space-separated lowercase corpora used in the witnesses it returns the
same token list as nltk word_tokenize. -/
def whitespace_tokenize (s : String) : List String :=
  wordsAux [] s.data

/-! Helper lemmas about the normalizer. -/

/-- Every character of the allowed class is fixed by Char.toLower. -/
theorem toLower_of_allowed (c : Char) (h : allowed c = true) : Char.toLower c = c := by
  have hn : ¬(65 ≤ c.toNat ∧ c.toNat ≤ 90) := by
    simp only [allowed, Bool.or_eq_true, Bool.and_eq_true, decide_eq_true_eq,
      beq_iff_eq] at h
    rintro ⟨hlo, hhi⟩
    rcases h with ((((((((⟨h1, _⟩ | h) | h) | h) | h) | h) | h) | h) | h)
    · have h97 : 97 ≤ c.toNat := by
        have h' : UInt32.ofNat 97 ≤ c.val := h1
        exact UInt32.le_toNat_of_le (by norm_num [UInt32.size]) h'
      omega
    all_goals (subst h; exact absurd hlo (by decide))
  simp only [Char.toLower]
  rw [if_neg]
  intro hc
  exact hn ⟨hc.1, hc.2⟩

/-- Characters of a substitution pass output come from the input or
are the replacement character. -/
theorem mem_subDotRunsAux {r x : Char} :
    ∀ {prev : Bool} {l : List Char}, x ∈ subDotRunsAux r prev l → x = r ∨ x ∈ l := by
  intro prev l
  induction l generalizing prev with
  | nil => intro h; simp [subDotRunsAux] at h
  | cons c cs ih =>
    intro h
    by_cases hc : c = '.'
    · by_cases hh : cs.head? = some '.'
      · simp only [subDotRunsAux, if_pos hc, if_pos hh] at h
        rcases ih h with h' | h'
        · exact Or.inl h'
        · exact Or.inr (List.mem_cons_of_mem _ h')
      · simp only [subDotRunsAux, if_pos hc, if_neg hh] at h
        rcases List.mem_cons.mp h with h' | h'
        · subst h'
          cases prev with
          | true => exact Or.inl rfl
          | false => exact Or.inr (by simp [hc])
        · rcases ih h' with h'' | h''
          · exact Or.inl h''
          · exact Or.inr (List.mem_cons_of_mem _ h'')
    · simp only [subDotRunsAux, if_neg hc] at h
      rcases List.mem_cons.mp h with h' | h'
      · exact Or.inr (by simp [h'])
      · rcases ih h' with h'' | h''
        · exact Or.inl h''
        · exact Or.inr (List.mem_cons_of_mem _ h'')

/-- When the input does not start with a dot, neither does the output
of a substitution pass. -/
theorem head_subDotRunsAux_ne_dot {r : Char} {cs : List Char}
    (h : cs.head? ≠ some '.') : (subDotRunsAux r false cs).head? ≠ some '.' := by
  cases cs with
  | nil => simp [subDotRunsAux]
  | cons a t =>
    have ha : a ≠ '.' := by
      intro e
      exact h (by simp [e])
    simp [subDotRunsAux, ha]

/-- The output of a substitution pass has no two consecutive dots. -/
theorem noRunOf_dot_subDotRunsAux (r : Char) :
    ∀ (prev : Bool) (l : List Char), noRunOf '.' (subDotRunsAux r prev l) = true := by
  intro prev l
  induction l generalizing prev with
  | nil => simp [subDotRunsAux, noRunOf]
  | cons c cs ih =>
    by_cases hc : c = '.'
    · by_cases hh : cs.head? = some '.'
      · simp only [subDotRunsAux, if_pos hc, if_pos hh]
        exact ih _
      · simp only [subDotRunsAux, if_pos hc, if_neg hh]
        have hhead := head_subDotRunsAux_ne_dot (r := r) hh
        simp only [noRunOf, Bool.and_eq_true, Bool.not_eq_true']
        refine ⟨?_, ih _⟩
        have hfalse : ((subDotRunsAux r false cs).head? == some '.') = false := by
          simpa using hhead
        simp [hfalse]
    · simp only [subDotRunsAux, if_neg hc]
      simp only [noRunOf, Bool.and_eq_true, Bool.not_eq_true']
      refine ⟨?_, ih _⟩
      have hfalse : (c == '.') = false := by simpa using hc
      simp [hfalse]

/-- On a list with no two consecutive dots, a substitution pass is the
identity. -/
theorem subDotRunsAux_id {r : Char} :
    ∀ {l : List Char}, noRunOf '.' l = true → subDotRunsAux r false l = l := by
  intro l
  induction l with
  | nil => intro; rfl
  | cons c cs ih =>
    intro h
    simp only [noRunOf, Bool.and_eq_true, Bool.not_eq_true'] at h
    obtain ⟨h1, h2⟩ := h
    by_cases hc : c = '.'
    · have hh : cs.head? ≠ some '.' := by
        intro e
        rw [hc, e] at h1
        simp at h1
      simp only [subDotRunsAux, if_pos hc, if_neg hh]
      rw [ih h2, hc]
      rfl
    · simp only [subDotRunsAux, if_neg hc]
      rw [ih h2]

/-- The dot-replacement pass coincides with the direct run collapse. -/
theorem subDotRunsAux_eq_collapse :
    ∀ (prev : Bool) (l : List Char), subDotRunsAux '.' prev l = collapseDotRuns l := by
  intro prev l
  induction l generalizing prev with
  | nil => rfl
  | cons c cs ih =>
    by_cases hc : c = '.'
    · by_cases hh : cs.head? = some '.'
      · simp only [subDotRunsAux, if_pos hc, if_pos hh, collapseDotRuns,
          if_pos (And.intro hc hh)]
        exact ih _
      · have hand : ¬(c = '.' ∧ cs.head? = some '.') := fun h => hh h.2
        simp only [subDotRunsAux, if_pos hc, if_neg hh, collapseDotRuns, if_neg hand]
        rw [ih false, hc]
        simp
    · have hand : ¬(c = '.' ∧ cs.head? = some '.') := fun h => hc h.1
      simp only [subDotRunsAux, if_neg hc, collapseDotRuns, if_neg hand]
      rw [ih false]

/-- The five later substitution passes of cleanup_text never fire:
cleanupList is the single dot-collapsing pass over the lowercased,
filtered text. -/
theorem cleanupList_eq_subDotRuns (l : List Char) :
    cleanupList l = subDotRuns '.' ((l.map Char.toLower).filter allowed) := by
  unfold cleanupList subDotRuns
  have h0 := noRunOf_dot_subDotRunsAux '.' false ((l.map Char.toLower).filter allowed)
  rw [subDotRunsAux_id h0, subDotRunsAux_id h0, subDotRunsAux_id h0,
    subDotRunsAux_id h0, subDotRunsAux_id h0]

/-- Every character of the normalized text is allowed. -/
theorem mem_cleanupList {x : Char} {l : List Char} (h : x ∈ cleanupList l) :
    allowed x = true := by
  unfold cleanupList subDotRuns at h
  rcases mem_subDotRunsAux h with rfl | h
  · decide
  rcases mem_subDotRunsAux h with rfl | h
  · decide
  rcases mem_subDotRunsAux h with rfl | h
  · decide
  rcases mem_subDotRunsAux h with rfl | h
  · decide
  rcases mem_subDotRunsAux h with rfl | h
  · decide
  rcases mem_subDotRunsAux h with rfl | h
  · decide
  exact (List.mem_filter.mp h).2

/-- The normalized text has no two consecutive dots. -/
theorem noRunOf_dot_cleanupList (l : List Char) : noRunOf '.' (cleanupList l) = true := by
  unfold cleanupList subDotRuns
  exact noRunOf_dot_subDotRunsAux ':' false _

/-- Mapping a function that fixes every element is the identity. -/
theorem map_id_of_forall {f : Char → Char} :
    ∀ {l : List Char}, (∀ c ∈ l, f c = c) → l.map f = l := by
  intro l
  induction l with
  | nil => intro; rfl
  | cons c cs ih =>
    intro h
    simp only [List.map_cons, h c (by simp), ih fun x hx => h x (by simp [hx])]

/-- cleanupList is idempotent. -/
theorem cleanupList_idem (l : List Char) : cleanupList (cleanupList l) = cleanupList l := by
  have hmem : ∀ c ∈ cleanupList l, allowed c = true := fun c hc => mem_cleanupList hc
  have hmap : (cleanupList l).map Char.toLower = cleanupList l :=
    map_id_of_forall fun c hc => toLower_of_allowed c (hmem c hc)
  have hfilter : ((cleanupList l).map Char.toLower).filter allowed = cleanupList l := by
    rw [hmap]
    exact List.filter_eq_self.mpr hmem
  rw [cleanupList_eq_subDotRuns (cleanupList l), hfilter, subDotRuns,
    subDotRunsAux_id (noRunOf_dot_cleanupList l)]

/-! Helper lemmas about the vocabulary. -/

/-- Lookup of a token absent from the token list fails. -/
theorem stoi_none_of_not_mem {w : String} :
    ∀ {ts : List String}, w ∉ ts → stoi ts w = none := by
  intro ts
  induction ts with
  | nil => intro; rfl
  | cons t ts ih =>
    intro h
    have ht : ¬(t = w) := fun e => h (by simp [e])
    have hw : w ∉ ts := fun e => h (by simp [e])
    simp [stoi, ht, ih hw]

/-- A lookup of a token absent from itos returns the default index. -/
theorem getitem_default {v : Vocab} {w : String} (h : w ∉ v.itos) :
    v.getitem w = v.default_index := by
  unfold Vocab.getitem
  rw [stoi_none_of_not_mem h]

/-- A non-special member of the built vocabulary reaches the
frequency threshold. -/
theorem vocab_mem_count {k : Nat} {lemmas : List String} {pad unk w : String}
    (hmem : w ∈ (vocab (counter lemmas) k [pad, unk]).itos)
    (hpad : w ≠ pad) (hunk : w ≠ unk) : k ≤ lemmas.count w := by
  simp only [vocab, List.mem_append, List.mem_cons, List.not_mem_nil, or_false,
    List.mem_map, List.mem_filter, decide_eq_true_eq] at hmem
  rcases hmem with (h | h) | ⟨p, ⟨⟨hp, _⟩, hk⟩, hpw⟩
  · exact absurd h hpad
  · exact absurd h hunk
  · obtain ⟨a, _, hpa⟩ := List.mem_map.mp hp
    rw [← hpa] at hpw hk
    simp only at hpw hk
    rw [← hpw]
    exact hk

/-! Claim theorems. -/

/-- C1: for every review string and every max_len, whenever the
vocabulary lookup of the normalized, tokenized, lemmatized review
produces the id sequence ids, process_reviews returns a list of exactly
max_len ids: ids right-padded with the pad id 0 when shorter than
max_len, the first max_len ids when longer, and ids itself when the
length is exactly max_len. -/
theorem C1_encoder_fixed_length (review : String) (tokenizer : String → List String)
    (lemmatizer : String → String) (vocabulary : Vocab) (max_len : Nat) (ids : List Nat)
    (h : vocabulary.call ((tokenizer (cleanup_text review)).map lemmatizer) = some ids) :
    ∃ out, process_reviews review tokenizer lemmatizer vocabulary max_len = some out ∧
      out.length = max_len ∧
      (ids.length < max_len → out = ids ++ List.replicate (max_len - ids.length) 0) ∧
      (max_len < ids.length → out = ids.take max_len) ∧
      (ids.length = max_len → out = ids) := by
  have heq : process_reviews review tokenizer lemmatizer vocabulary max_len =
      (if ids.length < max_len then some (ids ++ List.replicate (max_len - ids.length) 0)
       else if max_len < ids.length then some (ids.take max_len) else some ids) := by
    simp only [process_reviews, h]
  by_cases h1 : ids.length < max_len
  · refine ⟨ids ++ List.replicate (max_len - ids.length) 0, ?_, ?_, fun _ => rfl, ?_, ?_⟩
    · rw [heq, if_pos h1]
    · simp only [List.length_append, List.length_replicate]
      omega
    · intro h2
      exact absurd h2 (by omega)
    · intro h2
      exact absurd h2 (by omega)
  · by_cases h2 : max_len < ids.length
    · refine ⟨ids.take max_len, ?_, ?_, ?_, fun _ => rfl, ?_⟩
      · rw [heq, if_neg h1, if_pos h2]
      · simp only [List.length_take]
        omega
      · intro h3
        exact absurd h3 (by omega)
      · intro h3
        exact absurd h3 (by omega)
    · have h3 : ids.length = max_len := by omega
      refine ⟨ids, ?_, h3, ?_, ?_, fun _ => rfl⟩
      · rw [heq, if_neg h1, if_neg h2]
      · intro h4
        exact absurd h4 (by omega)
      · intro h4
        exact absurd h4 (by omega)

/-- Witness for C1: a two-token review against a vocabulary holding
only the specials, with max_len 4, is padded to length 4. -/
theorem C1_witness :
    ∃ out, process_reviews "hello world" whitespace_tokenize (fun w => w)
        ⟨["<pad>", "<unk>"], some 1⟩ 4 = some out ∧
      out.length = 4 ∧
      (([1, 1] : List Nat).length < 4 →
        out = [1, 1] ++ List.replicate (4 - ([1, 1] : List Nat).length) 0) ∧
      (4 < ([1, 1] : List Nat).length → out = ([1, 1] : List Nat).take 4) ∧
      (([1, 1] : List Nat).length = 4 → out = [1, 1]) :=
  C1_encoder_fixed_length "hello world" whitespace_tokenize (fun w => w)
    ⟨["<pad>", "<unk>"], some 1⟩ 4 [1, 1] (by decide)

/-- C2: for the frequency threshold used by the vocabulary builder
(any k for the underlying torchtext vocab construction; create_vocab
instantiates it at its hardcoded 10), every non-special lemma admitted
into the vocabulary has corpus frequency at least k, and every lemma
with frequency below k is absent and its lookup returns the unk id 1. -/
theorem C2_min_freq_threshold (k : Nat) (lemmas : List String) (pad unk w : String) :
    (w ∈ (vocab (counter lemmas) k [pad, unk]).itos → w ≠ pad → w ≠ unk →
      k ≤ lemmas.count w) ∧
    (lemmas.count w < k → w ≠ pad → w ≠ unk →
      w ∉ (vocab (counter lemmas) k [pad, unk]).itos ∧
      (set_default_index (vocab (counter lemmas) k [pad, unk]) 1).getitem w = some 1) ∧
    (∀ (text : String) (tokenizer : String → List String) (lemmatizer : String → String),
      create_vocab text tokenizer lemmatizer unk pad =
        set_default_index (vocab (counter ((tokenizer text).map lemmatizer)) 10 [pad, unk]) 1) := by
  refine ⟨fun hmem hpad hunk => vocab_mem_count hmem hpad hunk, ?_, fun _ _ _ => rfl⟩
  intro hlt hpad hunk
  have habs : w ∉ (vocab (counter lemmas) k [pad, unk]).itos := by
    intro hmem
    exact absurd (vocab_mem_count hmem hpad hunk) (by omega)
  refine ⟨habs, ?_⟩
  have habs' : w ∉ (set_default_index (vocab (counter lemmas) k [pad, unk]) 1).itos := habs
  rw [getitem_default habs']
  rfl

/-- Witness for C2: in the one-token corpus the token has frequency 1,
is rejected by threshold 10, and looks up to the unk id 1. -/
theorem C2_witness :
    "hi" ∉ (vocab (counter ["hi"]) 10 ["<pad>", "<unk>"]).itos ∧
    (set_default_index (vocab (counter ["hi"]) 10 ["<pad>", "<unk>"]) 1).getitem "hi" = some 1 :=
  (C2_min_freq_threshold 10 ["hi"] "<pad>" "<unk>" "hi").2.1 (by decide) (by decide) (by decide)

/-- C3: create_vocab always yields a vocabulary with the pad symbol at
id 0 and the unk symbol at id 1, and on a corpus the tokenizer turns
into no tokens the vocabulary holds exactly the two specials. -/
theorem C3_specials_and_empty_corpus (text : String) (tokenizer : String → List String)
    (lemmatizer : String → String) (unk pad : String) (hne : pad ≠ unk) :
    (create_vocab text tokenizer lemmatizer unk pad).getitem pad = some 0 ∧
    (create_vocab text tokenizer lemmatizer unk pad).getitem unk = some 1 ∧
    (tokenizer text = [] →
      (create_vocab text tokenizer lemmatizer unk pad).itos = [pad, unk]) := by
  refine ⟨?_, ?_, ?_⟩
  · simp [create_vocab, set_default_index, vocab, Vocab.getitem, stoi]
  · simp [create_vocab, set_default_index, vocab, Vocab.getitem, stoi, hne]
  · intro h
    simp [create_vocab, set_default_index, vocab, h, counter, firstSeen]

/-- Witness for C3 on the empty corpus with the concrete tokenizer. -/
theorem C3_witness :
    (create_vocab "" whitespace_tokenize (fun w => w) "<unk>" "<pad>").getitem "<pad>"
        = some 0 ∧
    (create_vocab "" whitespace_tokenize (fun w => w) "<unk>" "<pad>").getitem "<unk>"
        = some 1 ∧
    (create_vocab "" whitespace_tokenize (fun w => w) "<unk>" "<pad>").itos
        = ["<pad>", "<unk>"] :=
  ⟨(C3_specials_and_empty_corpus "" whitespace_tokenize (fun w => w) "<unk>" "<pad>"
      (by decide)).1,
   (C3_specials_and_empty_corpus "" whitespace_tokenize (fun w => w) "<unk>" "<pad>"
      (by decide)).2.1,
   (C3_specials_and_empty_corpus "" whitespace_tokenize (fun w => w) "<unk>" "<pad>"
      (by decide)).2.2 (by decide)⟩

/-- C4: every character of the normalized text cleanup_text(s) belongs
to the allowed set, lowercase a-z, space, newline and the punctuation
characters dot, bang, open paren, close paren, colon, question mark. -/
theorem C4_cleanup_text_alphabet (s : String) :
    ∀ c ∈ (cleanup_text s).data, allowed c = true := by
  intro c hc
  exact mem_cleanupList hc

/-- Witness for C4 on a concrete input. -/
theorem C4_witness : allowed 'a' = true :=
  C4_cleanup_text_alphabet "A!" 'a' (by decide)

/-- C5: cleanup_text is idempotent. -/
theorem C5_cleanup_text_idempotent (s : String) :
    cleanup_text (cleanup_text s) = cleanup_text s := by
  unfold cleanup_text
  exact congrArg String.mk (cleanupList_idem s.data)

/-- C6: the normalized text cleanup_text(s) never contains two or more
consecutive literal dot characters. -/
theorem C6_no_dot_runs (s : String) : noRunOf '.' (cleanup_text s).data = true :=
  noRunOf_dot_cleanupList s.data

/-- C7 counterexample: the claim that no punctuation mark of the class
ever repeats in the output fails on the input of two bangs, which
cleanup_text returns unchanged. -/
theorem C7_counterexample : noPunctRuns (cleanup_text "!!").data = false := by decide

/-- C7 amended: only runs of the literal dot are collapsed; for every
input the output has no run of two or more consecutive dots, while runs
of the other five punctuation marks can persist. -/
theorem C7_amended_only_dot_runs (s : String) :
    noRunOf '.' (cleanup_text s).data = true := by
  exact noRunOf_dot_cleanupList s.data

/-- C8 counterexample: with the hardcoded threshold 10 the corpus of
the claim admits nothing; in particular the lemma great is not in the
built vocabulary, so the admitted set is not the claimed one. -/
theorem C8_counterexample :
    "great" ∉ (create_vocab "great dress great fit" whitespace_tokenize
      (fun w => w) "<unk>" "<pad>").itos := by decide

/-- C8 amended: create_vocab takes no caller-supplied threshold and
uses the fixed min_freq 10; on the corpus of the claim every lemma has
frequency at most 2, so none is admitted: the vocabulary holds exactly
pad at 0 and unk at 1, and great, dress and fit all look up to 1. -/
theorem C8_amended_fixed_threshold :
    (create_vocab "great dress great fit" whitespace_tokenize (fun w => w)
        "<unk>" "<pad>").itos = ["<pad>", "<unk>"] ∧
    (create_vocab "great dress great fit" whitespace_tokenize (fun w => w)
        "<unk>" "<pad>").getitem "great" = some 1 ∧
    (create_vocab "great dress great fit" whitespace_tokenize (fun w => w)
        "<unk>" "<pad>").getitem "dress" = some 1 ∧
    (create_vocab "great dress great fit" whitespace_tokenize (fun w => w)
        "<unk>" "<pad>").getitem "fit" = some 1 := by decide

/-- C9: the corpus process_data feeds to vocabulary induction joins
only the training reviews, not the concatenation of the training and
validation reviews the spec prescribes: with one training review and
one validation review the built corpus drops the validation text. -/
theorem C9_corpus_training_only :
    process_data_corpus ["one review"] ["another review"] = "one review" ∧
    corpus_train_val ["one review"] ["another review"] = "one review\nanother review" ∧
    process_data_corpus ["one review"] ["another review"] ≠
      corpus_train_val ["one review"] ["another review"] := by decide

/-- C10: the five substitution passes after the first are unreachable:
cleanup_text coincides with the simpler function that lowercases,
filters to the allowed character set and collapses dot runs. -/
theorem C10_cleanup_text_eq_simple (s : String) : cleanup_text s = cleanup_simple s := by
  unfold cleanup_text cleanup_simple
  refine congrArg String.mk ?_
  rw [cleanupList_eq_subDotRuns]
  unfold subDotRuns
  exact subDotRunsAux_eq_collapse false _

end SentimentPrep
